import Mathlib

/-!
Verification of the APE (Agentic Protocol Executor) core against its
natural-language specification.

The Python source is shallowly embedded: Python strings become lists of
characters, the external tokenizer (`ape.utils.count_tokens`, a HuggingFace
tokenizer) becomes an abstract parameter `tk : Str → Nat`, network and
database calls become explicit oracle parameters recording the outcome the
library call would have produced, and every function under test is a
computable Lean definition mirroring the Python control flow line by line.
-/

namespace APE

/-- Python strings, modelled as lists of unicode characters. -/
abbrev Str := List Char

/-- Whitespace as recognised by Python's `str.split` / `str.strip`
(space, tab, newline, carriage return, vertical tab, form feed). -/
def isSpace (c : Char) : Bool :=
  c = ' ' || c = '\t' || c = '\n' || c = '\r' || c = Char.ofNat 11 || c = Char.ofNat 12

/-- Model of Python `text.split()`: split on runs of whitespace, returning the
(non-empty) words.  `acc` holds the current word, reversed. -/
def pySplitAux : Str → Str → List Str
  | [], acc => if acc = [] then [] else [acc.reverse]
  | c :: rest, acc =>
    if isSpace c then
      if acc = [] then pySplitAux rest [] else acc.reverse :: pySplitAux rest []
    else pySplitAux rest (c :: acc)

/-- Model of Python `text.split()` (no argument: split on whitespace runs). -/
def pySplit (s : Str) : List Str := pySplitAux s []

/-- Model of Python `" ".join(pieces)`. -/
def jws : List Str → Str
  | [] => []
  | [w] => w
  | w :: ws => w ++ ' ' :: jws ws

/-- Model of Python `"\n".join(pieces)`. -/
def jnl : List Str → Str
  | [] => []
  | [w] => w
  | w :: ws => w ++ '\n' :: jnl ws

/-- Drop trailing whitespace. -/
def dropTrailWs (s : Str) : Str := ((s.reverse).dropWhile isSpace).reverse

/-- Model of Python `text.strip()`. -/
def pyStrip (s : Str) : Str := dropTrailWs (s.dropWhile isSpace)

/-- Find the index of the first occurrence of `pat` in `s`. -/
def findSub (pat : Str) : Str → Option Nat
  | [] => if pat = [] then some 0 else none
  | c :: rest =>
    if pat.isPrefixOf (c :: rest) then some 0
    else match findSub pat rest with
      | some i => some (i + 1)
      | none => none

def openTag : Str := "<think>".data

def closeTag : Str := "</think>".data

/-- Worker for `stripThink`; the fuel bounds the number of removed blocks. -/
def stripThinkGo : Nat → Str → Str
  | 0, s => s
  | fuel + 1, s =>
    match findSub openTag s with
    | none => s
    | some i =>
      let afterOpen := s.drop (i + openTag.length)
      match findSub closeTag afterOpen with
      | none => s
      | some j => s.take i ++ stripThinkGo fuel (afterOpen.drop (j + closeTag.length))

/-- Model of `re.sub(r"<think>.*?</think>", "", text, flags=re.S)`: remove every
non-greedy `<think>…</think>` block, scanning left to right. -/
def stripThink (s : Str) : Str := stripThinkGo s.length s

/-- Sentence-boundary punctuation of `re.split(r'(?<=[.!?])\s+', text)`. -/
def isPunct (c : Char) : Bool := c = '.' || c = '!' || c = '?'

/-- Worker for `splitSentences`; `acc` holds the current sentence, reversed.
A split happens after a `.`, `!` or `?` that is followed by whitespace, and the
whitespace run is consumed (the regex `\s+` is greedy). -/
def splitSentencesAux : Str → Str → List Str
  | [], acc => [acc.reverse]
  | c :: rest, acc =>
    if isPunct c && ((rest.head?.map isSpace).getD false) then
      (acc.reverse ++ [c]) :: splitSentencesAux (rest.dropWhile isSpace) []
    else
      splitSentencesAux rest (c :: acc)
termination_by s _ => s.length
decreasing_by
  · simp only [List.length_cons]
    exact Nat.lt_succ_of_le (List.dropWhile_suffix _).length_le
  · simp

/-- Model of Python `re.split(r'(?<=[.!?])\s+', text)`. -/
def splitSentences (s : Str) : List Str := splitSentencesAux s []

/-- A concrete token counter used to instantiate witnesses: the number of
whitespace-separated words.  The real system delegates to an external
HuggingFace tokenizer; theorems are stated for an arbitrary `tk : Str → Nat`. -/
def wordTk (s : Str) : Nat := (pySplit s).length

/-! ### Rate limiter — src/ape/core/rate_limiter.py -/

def CALLS_PER_MINUTE : Nat := 60

def WINDOW_SECONDS : ℚ := 60

/-- Model of `allow(session_id)` acting on that session's deque of timestamps
(oldest first); `now` is the value of `time()`.  Timestamps strictly older than
`now - WINDOW_SECONDS` are popped from the left; the call is rejected when the
remaining count is at least `CALLS_PER_MINUTE`, otherwise `now` is appended
and the call is accepted. -/
def allow (now : ℚ) (q : List ℚ) : Bool × List ℚ :=
  let q1 := q.dropWhile (fun t => t < now - WINDOW_SECONDS)
  if CALLS_PER_MINUTE ≤ q1.length then (false, q1)
  else (true, q1 ++ [now])

/-- Run a sequence of `allow` calls, one per timestamp, threading the queue. -/
def runAllow : List ℚ → List ℚ → List Bool × List ℚ
  | [], q => ([], q)
  | t :: ts, q =>
    let r := allow t q
    let rest := runAllow ts r.2
    (r.1 :: rest.1, rest.2)

/-! ### Capability registry — src/ape/mcp/plugin.py -/

/-- One `_REGISTRY` value: the handler function and the schema are opaque to
registration, so they are modelled by identifiers. -/
structure ToolEntry where
  fn : Nat
  description : Str
  inputSchema : Nat
deriving DecidableEq

/-- Python dict assignment `d[name] = entry`: replace the value when the key is
already present (keeping its position) and append the binding otherwise. -/
def dictSet (reg : List (Str × ToolEntry)) (name : Str) (entry : ToolEntry) :
    List (Str × ToolEntry) :=
  if reg.any (fun p => p.1 = name) then
    reg.map (fun p => if p.1 = name then (name, entry) else p)
  else reg ++ [(name, entry)]

/-- Model of the `tool(name, description, input_schema)` decorator of
`ape.mcp.plugin`: its body performs `_REGISTRY[name] = ...`, a plain dict
assignment with no duplicate-name check and no error path. -/
def toolRegister (name : Str) (entry : ToolEntry) (reg : List (Str × ToolEntry)) :
    List (Str × ToolEntry) :=
  dictSet reg name entry

/-- Dict lookup `_REGISTRY[name]`. -/
def regLookup (reg : List (Str × ToolEntry)) (name : Str) : Option ToolEntry :=
  (reg.find? (fun p => p.1 = name)).map Prod.snd

/-! ### Session persistence — src/ape/mcp/session_manager.py -/

/-- A message as passed to `save_messages`: `role` and `content`, plus the
optional `images` and `timestamp` keys (`msg.get(...)` defaults apply). -/
structure InMsg where
  role : Str
  content : Str
  images : List Str := []
  timestamp : Option Str := none
deriving DecidableEq

/-- One row of the `history` table.  Rows are kept in rowid (insertion)
order; `images` stores the JSON-serialised list, modelled by the list itself
(JSON round-trips lists of strings losslessly). -/
structure DbRow where
  session_id : Str
  role : Str
  content : Str
  images : List Str
  timestamp : Str
deriving DecidableEq

/-- A message as returned by `get_history`.  The stored `images` column is the
JSON text of a list, which is a non-empty (hence truthy) string even for `[]`,
so the `images` key is always added back. -/
structure OutMsg where
  role : Str
  content : Str
  timestamp : Str
  images : List Str
deriving DecidableEq

/-- Lexicographic (byte-wise) text comparison used by the SQL store to order
the `timestamp` TEXT column. -/
def strLt : Str → Str → Bool
  | [], [] => false
  | [], _ :: _ => true
  | _ :: _, [] => false
  | a :: as, b :: bs => if a < b then true else if b < a then false else strLt as bs

def strLe (x y : Str) : Bool := !(strLt y x)

/-- Insert a row into a timestamp-sorted list, after existing rows with the
same timestamp (`ORDER BY timestamp ASC` leaves ties in rowid order). -/
def insertByTs (r : DbRow) : List DbRow → List DbRow
  | [] => [r]
  | x :: xs => if strLe r.timestamp x.timestamp then r :: x :: xs else x :: insertByTs r xs

/-- Stable sort by timestamp, modelling `ORDER BY timestamp ASC`. -/
def sortByTs : List DbRow → List DbRow
  | [] => []
  | r :: rs => insertByTs r (sortByTs rs)

/-- Model of `SessionManager.save_messages(session_id, messages)`: delete every
`history` row of the session, then insert the given messages in order.  New
rows receive fresh (larger) rowids, hence are appended; `nows i` is the value
`datetime.now().isoformat()` would produce for the i-th insert when the
message carries no explicit timestamp. -/
def save_messages (db : List DbRow) (s : Str) (ms : List InMsg) (nows : Nat → Str) :
    List DbRow :=
  (db.filter (fun r => r.session_id ≠ s)) ++
    ms.enum.map (fun im =>
      ⟨s, im.2.role, im.2.content, im.2.images, im.2.timestamp.getD (nows im.1)⟩)

/-- Model of `SessionManager.get_history(session_id)`: select the session's
rows ordered by timestamp ascending and rebuild the message dicts. -/
def get_history (db : List DbRow) (s : Str) : List OutMsg :=
  (sortByTs (db.filter (fun r => r.session_id = s))).map
    (fun r => ⟨r.role, r.content, r.timestamp, r.images⟩)

/-! ### Signed-envelope verification — src/ape/core/agent_core.py,
`AgentCore.handle_tool_calls`, lines 287-318 -/

structure JwtClaims where
  result_id : Option Str
  payload : Option Str
deriving DecidableEq

/-- A JWT token string, modelled by its semantic content: the claims it
carries, the key it was signed with, and its `exp` claim.  A corrupted or
arbitrary token string is represented by a token whose `key` differs from
every secret. -/
structure JwtToken where
  claims : JwtClaims
  key : Str
  exp : Int
deriving DecidableEq

inductive JwtError
  | expired
  | invalid
deriving DecidableEq

/-- Model of `jwt.decode(token, key, algorithms=["HS256"])` at time `now`: the
signature verifies iff the token was signed with the same `key`; a past `exp`
claim raises `ExpiredSignatureError`; every other defect raises
`InvalidTokenError`. -/
def jwtDecode (tok : JwtToken) (key : Str) (now : Int) : Except JwtError JwtClaims :=
  if tok.key ≠ key then .error .invalid
  else if tok.exp ≤ now then .error .expired
  else .ok tok.claims

/-- The JSON object a tool-result string parses to, as read by
`AgentCore.handle_tool_calls`: the `jwt` and `sig` fields (present-and-truthy
token strings, given by their token model) and the `payload` and `result_id`
fields.  `none` at the top level models a `json.loads` failure. -/
structure ToolResultEnv where
  jwtField : Option JwtToken
  sigField : Option JwtToken
  payload : Option Str
  result_id : Option Str
deriving DecidableEq

/-- Rendering of the whole decoded claims dict, used by the source when the
`payload` claim is missing or empty (`json.dumps(decoded, ensure_ascii=False)`).
The exact JSON text never matters to a claim; an injective rendering is used. -/
def dumpClaims (c : JwtClaims) : Str :=
  (c.result_id.getD []) ++ '|' :: (c.payload.getD [])

def malformedMsg : Str := "Malformed tool response".data

def expiredMsg : Str := "Signature expired".data

def invalidMsg : Str := "Invalid signature".data

def missingMsg : Str := "Missing JWT signature in tool result.".data

structure VerifyOutcome where
  verified : Bool
  payload_text : Str
  verification_error : Str
deriving DecidableEq

/-- Model of the JWT-verification block of `AgentCore.handle_tool_calls`
(src/ape/core/agent_core.py lines 287-318).  `raw` is the raw tool-result
text, `parsed` the result of `json.loads(raw)`.  The block picks
`env.get("jwt") or env.get("sig") or ""`; a non-empty token is decoded with
the process secret, and `verified` is set on decode success alone. -/
def verifyToolResult (secret : Str) (now : Int) (raw : Str)
    (parsed : Option ToolResultEnv) : VerifyOutcome :=
  match parsed with
  | none => ⟨false, raw, malformedMsg⟩
  | some env =>
    match env.jwtField <|> env.sigField with
    | some tok =>
      match jwtDecode tok secret now with
      | .ok claims =>
        let ptext :=
          match claims.payload with
          | some p => if p ≠ [] then p else dumpClaims claims
          | none => dumpClaims claims
        ⟨true, ptext, []⟩
      | .error .expired => ⟨false, [], expiredMsg⟩
      | .error .invalid => ⟨false, [], invalidMsg⟩
    | none =>
      let ptext :=
        match env.payload with
        | some p => if p ≠ [] then p else raw
        | none => raw
      ⟨false, ptext, missingMsg⟩

/-! ### Window Memory — src/ape/core/memory.py -/

structure Msg where
  role : Str
  content : Str
deriving DecidableEq

structure MemState where
  messages : List Msg
  summary : Str
deriving DecidableEq

/-- Model of `WindowMemory.tokens()`: raw message tokens plus summary tokens. -/
def memTokens (tk : Str → Nat) (s : MemState) : Nat :=
  (s.messages.map (fun m => tk m.content)).sum + tk s.summary

/-- Outcome of the `summarize_text` MCP round-trip inside
`WindowMemory.summarize`: `raises` models the tool call raising an exception,
`returns r` a completed call whose envelope extraction yielded `r` (the
extraction only shapes the success value and no claim depends on it). -/
inductive SummarizeCall
  | raises
  | returns (extracted : Str)

/-- Model of the `except` fallback of `WindowMemory.summarize`
(src/ape/core/memory.py lines 114-118):
`tokens = text.split(); return " ".join(tokens[:128]) if tokens else ""`. -/
def summarizeFallback (text : Str) : Str :=
  let tokens := pySplit text
  if tokens = [] then [] else jws (tokens.take 128)

/-- Model of `WindowMemory.summarize(text)`. -/
def windowSummarize : SummarizeCall → Str → Str
  | .raises, text => summarizeFallback text
  | .returns r, _ => r

/-- Model of `SessionManager.a_save_summary`: the INSERT may fail
(`dbOk = false`) but the method catches every exception internally and
returns normally, so the caller observes no failure; the returned flag
reports whether the Summary Record was actually persisted. -/
def a_save_summary (dbOk : Bool) : Bool := dbOk

structure PruneResult where
  state : MemState
  aborted : Bool
  persisted : List Bool
deriving DecidableEq

/-- The batch size of one prune cycle: the oldest 25% of the current
messages, at least one (`max(1, len(self.messages) // 4)`). -/
def pruneBatchSize (s : MemState) : Nat := max 1 (s.messages.length / 4)

/-- The text handed to the summariser in one prune cycle: the contents of the
chosen batch joined with newlines, think-stripped unless
`SUMMARIZE_THOUGHTS`, then stripped. -/
def pruneChunkText (summarizeThoughts : Bool) (s : MemState) : Str :=
  let text0 := jnl ((s.messages.take (pruneBatchSize s)).map (fun m => m.content))
  pyStrip (if summarizeThoughts then text0 else stripThink text0)

/-- The memory state after a successful prune cycle with summary `st`: the
batch is deleted and `st` is appended to the cumulative summary (with a
newline separator when a summary already exists). -/
def pruneNext (st : Str) (s : MemState) : MemState :=
  ⟨s.messages.drop (pruneBatchSize s),
   s.summary ++ (if s.summary ≠ [] then ['\n'] else []) ++ st⟩

/-- The `while` loop of `WindowMemory.prune` (src/ape/core/memory.py lines
120-162) with explicit fuel.  Per cycle `k`: the oldest batch is summarised
(`summarizer k text`); an empty summary aborts the loop with memory
unchanged; otherwise `get_session_manager()` may raise (`smRaises k = true`),
which the `except` catches, aborting the loop with memory unchanged;
otherwise `a_save_summary` runs when a session id is set (its persistence
outcome `dbOk k` is recorded in `persisted` — a failed INSERT does not abort
anything, see `a_save_summary`), the batch is deleted and the summary text
appended. -/
def pruneFuel (tk : Str → Nat) (ctx_limit margin : Int)
    (summarizeThoughts hasSession : Bool) (summarizer : Nat → Str → Str)
    (smRaises : Nat → Bool) (dbOk : Nat → Bool) :
    Nat → Nat → MemState → PruneResult
  | 0, _, s => ⟨s, false, []⟩
  | fuel + 1, k, s =>
    if (memTokens tk s : Int) > ctx_limit - margin ∧ s.messages ≠ [] then
      if summarizer k (pruneChunkText summarizeThoughts s) ≠ [] then
        if smRaises k then ⟨s, true, []⟩
        else
          let p := if hasSession then a_save_summary (dbOk k) else true
          let r := pruneFuel tk ctx_limit margin summarizeThoughts hasSession
            summarizer smRaises dbOk fuel (k + 1)
            (pruneNext (summarizer k (pruneChunkText summarizeThoughts s)) s)
          ⟨r.state, r.aborted, p :: r.persisted⟩
      else ⟨s, true, []⟩
    else ⟨s, false, []⟩

/-- Model of `WindowMemory.prune()`: the fuel `messages.length + 1` is enough
for the loop to run to its natural exit (each successful cycle removes at
least one message). -/
def prune (tk : Str → Nat) (ctx_limit margin : Int)
    (summarizeThoughts hasSession : Bool) (summarizer : Nat → Str → Str)
    (smRaises : Nat → Bool) (dbOk : Nat → Bool) (s : MemState) : PruneResult :=
  pruneFuel tk ctx_limit margin summarizeThoughts hasSession summarizer smRaises dbOk
    (s.messages.length + 1) 0 s

/-! ### Summariser tool — src/ape/mcp/implementations.py, `summarize_text_impl` -/

def INPUT_LIMIT : Nat := 4000

def securityErrorMsg : Str :=
  ("SECURITY_ERROR: Input too large for summarize_text tool. " ++
   "Maximum allowed is 4000 tokens.").data

def noContentMsg : Str := "(no content)".data

/-- The accumulation loop of the smart sentence truncation (source lines
553-559): append sentences (each followed by a space) while the accumulated
text plus the next sentence stays within the cap; stop at the first overflow. -/
def sentLoop (tk : Str → Nat) (cap : Nat) : List Str → Str → Str
  | [], acc => acc
  | sent :: rest, acc =>
    if tk (acc ++ sent) ≤ cap then sentLoop tk cap rest (acc ++ sent ++ [' '])
    else acc

/-- Smart sentence-based truncation of an overlong summary (source lines
551-565).  The trailing `if not summary:` word-chopping branch of the source
is a no-op: at that point `summary` is the empty string, so
`words = summary.split()` is empty and the inner `while` never runs. -/
def truncateBySentences (tk : Str → Nat) (cap : Nat) (summary : Str) : Str :=
  let sentences := splitSentences summary
  pyStrip (sentLoop tk cap sentences [])

/-- The sentence-accumulation loop of the extractive fallback (source lines
580-587): skip empty sentences, break at the first sentence that would push
the running token count over the cap. -/
def fbAccum (tk : Str → Nat) (cap : Nat) : List Str → List Str → Nat → List Str
  | [], acc, _ => acc
  | sent :: rest, acc, cnt =>
    if sent = [] then fbAccum tk cap rest acc cnt
    else if cap < cnt + tk sent then acc
    else fbAccum tk cap rest (acc ++ [sent]) (cnt + tk sent)

/-- The final `while count_tokens(summary) > token_cap` loop of the fallback
(source lines 597-598): drop the last word each round.  Exhausted fuel with
the condition still true models Python non-termination and yields `none`. -/
def chopWhile (tk : Str → Nat) (cap : Nat) : Nat → Str → Option Str
  | 0, s => if tk s ≤ cap then some s else none
  | fuel + 1, s =>
    if tk s ≤ cap then some s
    else chopWhile tk cap fuel (jws (pySplit s).dropLast)

/-- The heuristic extractive fallback (source lines 576-600): leading
sentences in order up to the cap; if no sentence fits and the (preprocessed)
text is non-empty, the first `token_cap` words; then the final while-loop and
the `summary or "(no content)"` return. -/
def extractiveFallback (tk : Str → Nat) (cap : Nat) (text : Str) : Option Str :=
  let sentences := splitSentences (pyStrip text)
  let ss := fbAccum tk cap sentences [] 0
  let ss2 := if ss = [] ∧ text ≠ [] then
      [jws ((pySplit text).take (min (pySplit text).length cap))]
    else ss
  let summary := pyStrip (jws ss2)
  match chopWhile tk cap ((pySplit summary).length + 1) summary with
  | none => none
  | some r => some (if r ≠ [] then r else noContentMsg)

/-- Outcome of one `client.generate` call: `none` models a raised exception or
timeout, `some r` a response with text `r`. -/
abbrev GenResult := Option Str

/-- The retry step of `summarize_text_impl` (source lines 537-548): when the
first summary is non-empty but over the cap, ask again with a stricter
prompt; a raised exception (`r2 = none`) propagates out of the `try` block. -/
def attemptStep2 (tk : Str → Nat) (cap : Nat) (r2 : GenResult) (summary : Str) :
    Option Str :=
  if summary ≠ [] ∧ cap < tk summary then
    match r2 with
    | none => none
    | some a2 => some (pyStrip a2)
  else some summary

/-- The tail of the `try` block (source lines 550-568): smart truncation when
still over the cap, then `if summary: return summary` (an empty summary falls
through to the fallback). -/
def attemptFinish (tk : Str → Nat) (cap : Nat) (summary2 : Str) : Option Str :=
  let summary3 :=
    if summary2 ≠ [] ∧ cap < tk summary2 then truncateBySentences tk cap summary2
    else summary2
  if summary3 ≠ [] then some summary3 else none

/-- The `try` block of steps 2-4 of `summarize_text_impl` (source lines
519-568): first model attempt, conditional retry, conditional smart
truncation.  `none` means the block raised (an exception in either Ollama
call falls through to the extractive fallback) or ended with an empty
summary. -/
def summarizerAttempt (tk : Str → Nat) (cap : Nat) (r1 r2 : GenResult) : Option Str :=
  match r1 with
  | none => none
  | some a1 =>
    match attemptStep2 tk cap r2 (pyStrip a1) with
    | none => none
    | some summary2 => attemptFinish tk cap summary2

/-- Model of `summarize_text_impl(text)` (src/ape/mcp/implementations.py
lines 476-600).  `r1` and `r2` are the outcomes of the first and the retry
Ollama call.  An overall `none` models the — for real tokenizers
unreachable — divergence of the fallback's final while loop. -/
def summarize_text_impl (tk : Str → Nat) (summarizeThoughts : Bool) (cap : Nat)
    (r1 r2 : GenResult) (text : Str) : Option Str :=
  let text1 := if summarizeThoughts then text else stripThink text
  if INPUT_LIMIT < tk text1 then some securityErrorMsg
  else
    match summarizerAttempt tk cap r1 r2 with
    | some s => some s
    | none => extractiveFallback tk cap text1

/-- Proof bookkeeping: the string does not begin with whitespace. -/
def noLeadWs (s : Str) : Prop := ∀ c, s.head? = some c → isSpace c = false

/-- Proof bookkeeping: the string does not end with whitespace. -/
def noTrailWs (s : Str) : Prop := ∀ c, s.getLast? = some c → isSpace c = false

/-- Proof bookkeeping: the accumulator shape of the sentence-truncation loop,
each selected sentence followed by one space. -/
def accOf (sel : List Str) : Str := (sel.map (fun w => w ++ [' '])).flatten

/-! ### Agent loop — src/ape/core/agent_core.py, `AgentCore.chat_with_llm` -/

/-- Outcome of one streaming chat request: either the stream emitted
`tool_calls` after accumulating `text` (the inner loop breaks and the
iteration counter increments), or the stream ended normally with accumulated
`text` (the final answer). -/
inductive StreamTurn
  | toolTurn (text : Str)
  | finalTurn (text : Str)

/-- The `while iteration < max_iter` loop of `chat_with_llm` (source lines
428-565), accumulating `cumulative_resp`.  The fuel is the number of
iterations still allowed (`max_iter - iteration`, and the counter only moves
on tool turns); `turns i` is the outcome of the streaming request made with
iteration counter `i`.  On a tool turn the chunk plus a newline is appended
when the chunk is non-empty; on a final turn the chunk is appended and the
loop breaks.  After the loop, `cumulative_resp` is returned as is. -/
def chatLoop (turns : Nat → StreamTurn) : Nat → Nat → Str → Str
  | 0, _, cumulative => cumulative
  | fuel + 1, iteration, cumulative =>
    match turns iteration with
    | .toolTurn t =>
      chatLoop turns fuel (iteration + 1)
        (if t ≠ [] then cumulative ++ t ++ ['\n'] else cumulative)
    | .finalTurn t => if t ≠ [] then cumulative ++ t else cumulative

/-- Model of the return value of `AgentCore.chat_with_llm` as a function of
the per-iteration stream outcomes. -/
def chat_with_llm (turns : Nat → StreamTurn) (max_iter : Nat) : Str :=
  chatLoop turns max_iter 0 []

/-- The content the loop accumulates over `n` consecutive tool turns starting
at iteration `i` (the `finalTurn` case is unreachable when every turn below
the cap is a tool turn). -/
def capAccum (turns : Nat → StreamTurn) : Nat → Nat → Str
  | 0, _ => []
  | n + 1, i =>
    match turns i with
    | .toolTurn t => (if t ≠ [] then t ++ ['\n'] else []) ++ capAccum turns n (i + 1)
    | .finalTurn _ => []

/-! ### Multi-agent orchestrator — src/a2a_simulation.py,
`triple_agent_simulation` -/

structure SimMsg where
  role : Str
  content : Str
deriving DecidableEq

def userRole : Str := "user".data

def assistantRole : Str := "assistant".data

def systemRole : Str := "system".data

/-- The system-authored new-direction message injected on recovery (the exact
wording, paraphrased here, is immaterial to every claim). -/
def recoveryMsg : Str :=
  ("We are stuck in a loop. Reflect on the conversation history, summarize " ++
   "key points, and propose a completely new direction.").data

def max_repeats : Nat := 3

def max_recoveries : Nat := 3

/-- Normalisation `_strip_meta`: remove `<think>` blocks, collapse whitespace,
then lowercase. -/
def stripMeta (t : Str) : Str :=
  (jws (pySplit (stripThink t))).map Char.toLower

structure SimState where
  prevA : Option Str
  prevB : Option Str
  repA : Nat
  repB : Nat
  recovery_count : Nat
  convA : List SimMsg
  convB : List SimMsg
  current_message : Str
deriving DecidableEq

/-- The updated repetition counter for agent A after it replies `ra`. -/
def newRepA (ra : Str) (s : SimState) : Nat :=
  if stripMeta ra = stripMeta (s.prevA.getD []) then s.repA + 1 else 0

/-- The updated repetition counter for agent B after it replies `rb`. -/
def newRepB (rb : Str) (s : SimState) : Nat :=
  if stripMeta rb = stripMeta (s.prevB.getD []) then s.repB + 1 else 0

/-- One round of the simulation loop (src/a2a_simulation.py lines 165-267)
given the two replies of the round; returns the new state and whether the
loop breaks (maximum recoveries reached).  The recovery path appends the
system-authored recovery message to both conversation lists, resets the
repetition counters and increments the recovery counter; it performs no
operation on any agent memory (the `ChatAgent` instances of this script never
initialise a Window Memory) and clears neither conversation. -/
def simRound (response_a response_b : Str) (s : SimState) : SimState × Bool :=
  let convA := s.convA ++
    [⟨userRole, s.current_message⟩, ⟨assistantRole, response_a⟩]
  let msgB := stripThink response_a
  let convB := s.convB ++ [⟨userRole, msgB⟩, ⟨assistantRole, response_b⟩]
  let nextMsg := stripThink response_b
  let repA := newRepA response_a s
  let repB := newRepB response_b s
  if max_repeats ≤ repA ∨ max_repeats ≤ repB then
    let rc := s.recovery_count + 1
    (⟨some response_a, some response_b, 0, 0, rc,
      convA ++ [⟨systemRole, recoveryMsg⟩], convB ++ [⟨systemRole, recoveryMsg⟩],
      nextMsg⟩,
     decide (max_recoveries ≤ rc))
  else
    (⟨some response_a, some response_b, repA, repB, s.recovery_count,
      convA, convB, nextMsg⟩, false)

/-- Run `n` rounds starting at round index `i`, stopping early when a round
reports termination. -/
def simRunFrom (respA respB : Nat → Str) : Nat → Nat → SimState → SimState
  | 0, _, s => s
  | n + 1, i, s =>
    let r := simRound (respA i) (respB i) s
    if r.2 then r.1 else simRunFrom respA respB n (i + 1) r.1

/-- The initial orchestrator state: empty conversations and counters, the
seed message as the first input. -/
def initSimState (opening : Str) : SimState :=
  ⟨none, none, 0, 0, 0, [], [], opening⟩

/-!
## Theorems

Shared helper lemmas first, then one theorem (plus counterexample or witness
where required) per claim of the specification.
-/

/-- Every word produced by `pySplitAux` is non-empty. -/
theorem mem_pySplitAux_ne : ∀ s acc w : Str, w ∈ pySplitAux s acc → w ≠ [] := by
  intro s
  induction s with
  | nil =>
    intro acc w hw
    by_cases h : acc = []
    · simp [pySplitAux, h] at hw
    · simp [pySplitAux, h] at hw
      subst hw
      simpa using h
  | cons c rest ih =>
    intro acc w hw
    cases hc : isSpace c with
    | true =>
      by_cases h : acc = []
      · simp [pySplitAux, hc, h] at hw
        exact ih [] w hw
      · simp [pySplitAux, hc, h] at hw
        rcases hw with hw | hw
        · subst hw; simpa using h
        · exact ih [] w hw
    | false =>
      simp [pySplitAux, hc] at hw
      exact ih (c :: acc) w hw

/-- Every word of `pySplit` is non-empty. -/
theorem mem_pySplit_ne (s w : Str) (hw : w ∈ pySplit s) : w ≠ [] :=
  mem_pySplitAux_ne s [] w hw

/-- Joining a word list whose head is non-empty yields a non-empty string. -/
theorem jws_ne_nil (w : Str) (ws : List Str) (hw : w ≠ []) : jws (w :: ws) ≠ [] := by
  cases ws with
  | nil => simpa [jws] using hw
  | cons x r => simp [jws]

/-- Claim C8, counterexample: registering a second tool under the
already-taken name "echo" does not abort startup — the `tool` decorator's
dict assignment returns normally and the earlier handler is silently
replaced by the later one. -/
theorem C8_counterexample :
    toolRegister "echo".data ⟨2, "second".data, 0⟩
        (toolRegister "echo".data ⟨1, "first".data, 0⟩ []) =
      [("echo".data, ⟨2, "second".data, 0⟩)] ∧
    (⟨2, "second".data, 0⟩ : ToolEntry) ≠ ⟨1, "first".data, 0⟩ := by
  exact ⟨by decide, by decide⟩

/-- Looking up a key right after a dict assignment returns the new value. -/
theorem regLookup_dictSet (reg : List (Str × ToolEntry)) (n : Str) (e : ToolEntry) :
    regLookup (dictSet reg n e) n = some e := by
  induction reg with
  | nil => simp [dictSet, regLookup]
  | cons p rest ih =>
    by_cases hp : p.1 = n
    · simp [dictSet, regLookup, List.any_cons, hp]
    · have hstep : dictSet (p :: rest) n e = p :: dictSet rest n e := by
        cases ha : rest.any (fun q => decide (q.1 = n)) with
        | true => simp [dictSet, List.any_cons, hp, ha]
        | false => simp [dictSet, List.any_cons, hp, ha]
      rw [hstep]
      unfold regLookup at ih ⊢
      rw [List.find?_cons_of_neg _ (by simpa using hp)]
      exact ih

/-- After a dict assignment the key is present. -/
theorem any_dictSet (reg : List (Str × ToolEntry)) (n : Str) (e : ToolEntry) :
    (dictSet reg n e).any (fun p => decide (p.1 = n)) = true := by
  have h := regLookup_dictSet reg n e
  unfold regLookup at h
  cases hf : (dictSet reg n e).find? (fun p => decide (p.1 = n)) with
  | none => rw [hf] at h; simp at h
  | some q =>
    have hq := List.find?_some hf
    have hm := List.mem_of_find?_eq_some hf
    exact List.any_eq_true.mpr ⟨q, hm, hq⟩

/-- Assigning to a key that is already present keeps the dict size. -/
theorem dictSet_length_of_present (reg : List (Str × ToolEntry)) (n : Str)
    (e : ToolEntry) (h : reg.any (fun p => decide (p.1 = n)) = true) :
    (dictSet reg n e).length = reg.length := by
  unfold dictSet
  rw [h]
  simp

/-- Claim C8 (amended): registering a tool under a name already present in
the registry silently replaces the earlier entry — afterwards the registry
maps the name to the later handler, its size is unchanged, and startup
continues (registration is a total operation with no failure path). -/
theorem C8_duplicate_overwrites (reg : List (Str × ToolEntry)) (name : Str)
    (e1 e2 : ToolEntry) :
    regLookup (toolRegister name e2 (toolRegister name e1 reg)) name = some e2 ∧
    (toolRegister name e2 (toolRegister name e1 reg)).length =
      (toolRegister name e1 reg).length := by
  refine ⟨regLookup_dictSet _ _ _, ?_⟩
  exact dictSet_length_of_present _ _ _ (any_dictSet reg name e1)

/-- Claim C1, counterexample: `AgentCore.handle_tool_calls` accepts an
envelope whose token decodes successfully even though the decoded `payload`
differs from the envelope's `payload` field and the decoded `result_id`
differs from the envelope's `result_id`. -/
theorem C1_counterexample :
    (verifyToolResult "k".data 0 []
        (some ⟨some ⟨⟨some "r2".data, some "B".data⟩, "k".data, 10⟩, none,
               some "A".data, some "r1".data⟩)).verified = true ∧
    (some "B".data : Option Str) ≠ some "A".data ∧
    (some "r2".data : Option Str) ≠ some "r1".data := by
  exact ⟨by decide, by decide, by decide⟩

/-- Claim C1 (amended): `AgentCore.handle_tool_calls` accepts a tool-result
envelope iff the raw text parses as JSON and carries a non-empty `jwt` or
`sig` token that decodes under the process secret (same key, unexpired); the
envelope's `payload` and `result_id` fields play no part in the decision, and
the decoded payload is what gets used.  The legacy `ChatAgent` variant
instead recomputes an HMAC over `result_id` plus `payload`. -/
theorem C1_verified_iff (secret : Str) (now : Int) (raw : Str)
    (parsed : Option ToolResultEnv) :
    (verifyToolResult secret now raw parsed).verified = true ↔
      ∃ env tok, parsed = some env ∧
        (env.jwtField <|> env.sigField) = some tok ∧
        tok.key = secret ∧ now < tok.exp := by
  cases parsed with
  | none => simp [verifyToolResult]
  | some env =>
    cases htok : env.jwtField <|> env.sigField with
    | none => simp [verifyToolResult, htok]
    | some tok =>
      by_cases hk : tok.key = secret
      · by_cases he : tok.exp ≤ now
        · simp only [verifyToolResult, htok, jwtDecode, hk]
          simp [he, htok, Int.not_lt.mpr he]
        · simp only [verifyToolResult, htok, jwtDecode, hk]
          simp [he, htok, hk, Int.not_le.mp he]
      · simp only [verifyToolResult, htok, jwtDecode, hk]
        simp [htok, hk]

/-- Claim C10, counterexample: on transport failure with the non-empty,
whitespace-only input " ", the fallback of `WindowMemory.summarize` returns
the empty string, which the caller (`prune`, testing `if summary_text:`)
treats exactly like a failed summarisation — refuting the claim's clause
that failure is indistinguishable from a successful non-empty summary for
every non-empty input. -/
theorem C10_counterexample :
    windowSummarize .raises [' '] = [] ∧ ([' '] : Str) ≠ [] := by
  exact ⟨by decide, by decide⟩

/-- Claim C10 (amended): when the underlying `summarize_text` call raises,
`WindowMemory.summarize` does not propagate the error: it returns the first
`min(128, word count)` whitespace-separated words of the input joined by
single spaces (the empty string when the input has no words), so the failure
is indistinguishable from a successful non-empty summary whenever the input
contains at least one word. -/
theorem C10_fallback (text : Str) :
    windowSummarize .raises text = jws ((pySplit text).take 128) ∧
    (pySplit text ≠ [] → windowSummarize .raises text ≠ []) := by
  constructor
  · show summarizeFallback text = _
    unfold summarizeFallback
    by_cases h : pySplit text = []
    · simp [h, jws]
    · simp [h]
  · intro hne
    show summarizeFallback text ≠ []
    unfold summarizeFallback
    cases hs : pySplit text with
    | nil => exact absurd hs hne
    | cons w ws =>
      simp only [hs]
      have hw : w ≠ [] := mem_pySplit_ne text w (hs ▸ List.mem_cons_self w ws)
      simpa using jws_ne_nil w (ws.take 127) hw

/-- Witness for `C10_fallback` at the concrete input "hello world". -/
theorem C10_fallback_witness :
    windowSummarize .raises "hello world".data =
      jws ((pySplit "hello world".data).take 128) ∧
    pySplit "hello world".data ≠ [] ∧
    windowSummarize .raises "hello world".data ≠ [] := by
  refine ⟨(C10_fallback "hello world".data).1, by decide, ?_⟩
  exact (C10_fallback "hello world".data).2 (by decide)

/-- Claim C7, counterexample: with an iteration cap of 2 and every streaming
request producing tool calls, the loop hits the cap and `chat_with_llm`
returns exactly the accumulated model content "a\na\n" — identical to the
accumulation itself, so no terminal note was appended. -/
theorem C7_counterexample :
    chat_with_llm (fun _ => .toolTurn ['a']) 2 = ['a', '\n', 'a', '\n'] ∧
    capAccum (fun _ => .toolTurn ['a']) 2 0 = ['a', '\n', 'a', '\n'] := by
  exact ⟨rfl, rfl⟩

/-- The loop returns the running accumulator plus the remaining accumulation
when every remaining request produces tool calls. -/
theorem chatLoop_cap (turns : Nat → StreamTurn) :
    ∀ fuel i cum, (∀ j, i ≤ j → j < i + fuel → ∃ t, turns j = .toolTurn t) →
      chatLoop turns fuel i cum = cum ++ capAccum turns fuel i := by
  intro fuel
  induction fuel with
  | zero => intro i cum _; simp [chatLoop, capAccum]
  | succ n ih =>
    intro i cum h
    obtain ⟨t, ht⟩ := h i (Nat.le_refl i) (by omega)
    simp only [chatLoop, capAccum, ht]
    rw [ih (i + 1) _ (fun j hj1 hj2 => h j (by omega) (by omega))]
    by_cases hne : t ≠ [] <;> simp [hne]

/-- Claim C7 (amended): when the iteration cap is reached (every streaming
request up to `MAX_TOOLS_ITERATIONS` reports tool calls), `chat_with_llm`
returns exactly the accumulated model content — each non-empty chunk followed
by a newline — and no terminal note is appended (the capped-completion note
exists only in the legacy `cli_chat.py` front-end, not in
`AgentCore.chat_with_llm`). -/
theorem C7_cap_returns_accumulated (turns : Nat → StreamTurn) (max_iter : Nat)
    (hcap : ∀ i, i < max_iter → ∃ t, turns i = .toolTurn t) :
    chat_with_llm turns max_iter = capAccum turns max_iter 0 := by
  unfold chat_with_llm
  simpa using chatLoop_cap turns max_iter 0 []
    (fun j _ hj2 => hcap j (by omega))

/-- Witness for `C7_cap_returns_accumulated` with two tool-call turns. -/
theorem C7_cap_witness :
    chat_with_llm (fun _ => .toolTurn ['x', 'y']) 2 =
      capAccum (fun _ => .toolTurn ['x', 'y']) 2 0 :=
  C7_cap_returns_accumulated (fun _ => .toolTurn ['x', 'y']) 2
    (fun _ _ => ⟨['x', 'y'], rfl⟩)

/-- When no queue entry is expired, eviction keeps the queue unchanged. -/
theorem dropWhile_of_fresh (now : ℚ) (q : List ℚ)
    (h : ∀ u ∈ q, ¬ u < now - WINDOW_SECONDS) :
    q.dropWhile (fun t => decide (t < now - WINDOW_SECONDS)) = q := by
  cases q with
  | nil => rfl
  | cons u rest =>
    rw [List.dropWhile_cons]
    simp [h u (List.mem_cons_self u rest)]

/-- A batch of calls whose timestamps lie inside one window, run against a
queue of in-window timestamps that leaves room for all of them, is accepted
in full and appended to the queue in order. -/
theorem runAllow_accepts (t0 : ℚ) :
    ∀ ts q : List ℚ, (∀ t ∈ ts, t0 ≤ t ∧ t ≤ t0 + 60) →
      (∀ u ∈ q, t0 ≤ u) →
      q.length + ts.length ≤ CALLS_PER_MINUTE →
      (runAllow ts q).1 = List.replicate ts.length true ∧
      (runAllow ts q).2 = q ++ ts := by
  intro ts
  induction ts with
  | nil => intro q _ _ _; simp [runAllow]
  | cons t rest ih =>
    intro q hts hq hlen
    obtain ⟨ht0, ht60⟩ := hts t (List.mem_cons_self t rest)
    have hkeep : q.dropWhile (fun u => decide (u < t - WINDOW_SECONDS)) = q := by
      apply dropWhile_of_fresh
      intro u hu
      have := hq u hu
      unfold WINDOW_SECONDS
      linarith
    have hroom : ¬ CALLS_PER_MINUTE ≤ q.length := by
      simp only [List.length_cons, CALLS_PER_MINUTE] at hlen ⊢
      omega
    have hallow : allow t q = (true, q ++ [t]) := by
      unfold allow
      rw [hkeep, if_neg hroom]
    have hrec := ih (q ++ [t])
      (fun u hu => hts u (List.mem_cons_of_mem t hu))
      (fun u hu => by
        rcases List.mem_append.mp hu with h1 | h1
        · exact hq u h1
        · simp at h1; exact h1 ▸ ht0)
      (by simp only [List.length_append, List.length_cons, List.length_nil,
            CALLS_PER_MINUTE] at hlen ⊢
          omega)
    simp only [runAllow, hallow]
    refine ⟨?_, ?_⟩
    · simp [hrec.1, List.replicate_succ]
    · simp [hrec.2]

/-- Claim C5: from a fresh session queue, any sequence of at most 60 calls
whose timestamps lie within one 60-second window is accepted in full; when
exactly 60 were accepted, a further call inside the same window is rejected;
and the eviction that precedes every decision drops exactly the timestamps
strictly older than `now - window_seconds` (stated for a sorted queue, as
maintained by the FIFO). -/
theorem C5_rate_limiter (t0 : ℚ) (ts : List ℚ) (t61 : ℚ)
    (hspan : ∀ t ∈ ts, t0 ≤ t ∧ t ≤ t0 + 60)
    (hlen : ts.length ≤ CALLS_PER_MINUTE)
    (h61a : t0 ≤ t61) (h61b : t61 ≤ t0 + 60) :
    (runAllow ts []).1 = List.replicate ts.length true ∧
    (ts.length = CALLS_PER_MINUTE → (allow t61 (runAllow ts []).2).1 = false) ∧
    (∀ now : ℚ, ∀ q : List ℚ, q.Pairwise (· ≤ ·) →
      q.dropWhile (fun t => decide (t < now - WINDOW_SECONDS)) =
        q.filter (fun t => decide (now - WINDOW_SECONDS ≤ t))) := by
  have hrun := runAllow_accepts t0 ts [] hspan (by simp) (by simpa using hlen)
  refine ⟨hrun.1, ?_, ?_⟩
  · intro hfull
    rw [hrun.2]
    unfold allow
    have hkeep : ts.dropWhile (fun u => decide (u < t61 - WINDOW_SECONDS)) = ts := by
      apply dropWhile_of_fresh
      intro u hu
      have := (hspan u hu).1
      unfold WINDOW_SECONDS
      linarith
    simp only [List.nil_append, hkeep]
    rw [if_pos (by omega)]
  · intro now q hq
    induction q with
    | nil => rfl
    | cons u rest ihq =>
      rw [List.dropWhile_cons, List.filter_cons]
      by_cases hu : u < now - WINDOW_SECONDS
      · have hrest := ihq (List.Pairwise.of_cons hq)
        have hnot : ¬ now - WINDOW_SECONDS ≤ u := by linarith
        simp [hu, hnot, hrest]
      · have hge : now - WINDOW_SECONDS ≤ u := by linarith
        have hall : ∀ v ∈ rest, (fun t => decide (now - WINDOW_SECONDS ≤ t)) v = true := by
          intro v hv
          have huv : u ≤ v := (List.pairwise_cons.mp hq).1 v hv
          simp only [decide_eq_true_eq]
          linarith
        rw [List.filter_eq_self.mpr hall]
        simp [hu, hge]

/-- Witness for `C5_rate_limiter`: sixty calls at time 0, a 61st at time 1. -/
theorem C5_witness :
    (runAllow (List.replicate 60 (0 : ℚ)) []).1 =
      List.replicate (List.replicate 60 (0 : ℚ)).length true ∧
    (allow 1 (runAllow (List.replicate 60 (0 : ℚ)) []).2).1 = false := by
  have h := C5_rate_limiter 0 (List.replicate 60 (0 : ℚ)) 1
    (by intro t ht; simp at ht; subst ht; norm_num)
    (by simp [CALLS_PER_MINUTE]) (by norm_num) (by norm_num)
  exact ⟨h.1, h.2.1 (by simp [CALLS_PER_MINUTE])⟩

/-- Claim C6, counterexample: agent A replies "same" every round while agent
B never repeats.  After the third identical reply (rounds 1-3) no recovery
has run; the fourth triggers it, and the recovered state has a conversation
of nine entries ending in the appended system recovery message — the
conversations are extended, not cleared, and the recovery path contains no
memory operation at all (the script's `ChatAgent`s never initialise a Window
Memory, so no `force_summarize` exists to be called). -/
theorem C6_counterexample :
    (simRunFrom (fun _ => "same".data) (fun i => List.replicate (i + 1) 'b') 3 0
        (initSimState "go".data)).recovery_count = 0 ∧
    (simRunFrom (fun _ => "same".data) (fun i => List.replicate (i + 1) 'b') 4 0
        (initSimState "go".data)).recovery_count = 1 ∧
    (simRunFrom (fun _ => "same".data) (fun i => List.replicate (i + 1) 'b') 4 0
        (initSimState "go".data)).convA.length = 9 ∧
    (simRunFrom (fun _ => "same".data) (fun i => List.replicate (i + 1) 'b') 4 0
        (initSimState "go".data)).convA.getLast? =
      some ⟨systemRole, recoveryMsg⟩ := by
  exact ⟨by decide, by decide, by decide, by decide⟩

/-- Claim C6 (amended): recovery triggers when a repetition counter reaches
`max_repeats = 3` (counters count identical-to-previous comparisons, so this
is the fourth consecutive identical normalised reply), and the recovery path:
appends the system-authored new-direction message to both agents'
conversations (extending, never clearing them — the path performs no memory
operation and no `force_summarize` call), resets both repetition counters,
and increments the recovery counter, terminating the simulation exactly when
it reaches `max_recoveries = 3`. -/
theorem C6_recovery (ra rb : Str) (s : SimState)
    (htrig : max_repeats ≤ newRepA ra s ∨ max_repeats ≤ newRepB rb s) :
    (simRound ra rb s).1.convA =
      s.convA ++ [⟨userRole, s.current_message⟩, ⟨assistantRole, ra⟩,
                  ⟨systemRole, recoveryMsg⟩] ∧
    (simRound ra rb s).1.convB =
      s.convB ++ [⟨userRole, stripThink ra⟩, ⟨assistantRole, rb⟩,
                  ⟨systemRole, recoveryMsg⟩] ∧
    (simRound ra rb s).1.repA = 0 ∧ (simRound ra rb s).1.repB = 0 ∧
    (simRound ra rb s).1.recovery_count = s.recovery_count + 1 ∧
    ((simRound ra rb s).2 = true ↔ max_recoveries ≤ s.recovery_count + 1) := by
  unfold simRound
  rw [if_pos htrig]
  refine ⟨by simp, by simp, rfl, rfl, rfl, by simp⟩

/-- Witness for `C6_recovery`: a state two repetitions deep receiving a third
identical reply. -/
theorem C6_recovery_witness :
    (simRound "x".data "y".data
        ⟨some "x".data, none, 2, 0, 0, [], [], "m".data⟩).1.convA =
      ([] : List SimMsg) ++ [⟨userRole, "m".data⟩, ⟨assistantRole, "x".data⟩,
                  ⟨systemRole, recoveryMsg⟩] ∧
    (simRound "x".data "y".data
        ⟨some "x".data, none, 2, 0, 0, [], [], "m".data⟩).1.convB =
      ([] : List SimMsg) ++ [⟨userRole, stripThink "x".data⟩, ⟨assistantRole, "y".data⟩,
                  ⟨systemRole, recoveryMsg⟩] ∧
    (simRound "x".data "y".data
        ⟨some "x".data, none, 2, 0, 0, [], [], "m".data⟩).1.repA = 0 ∧
    (simRound "x".data "y".data
        ⟨some "x".data, none, 2, 0, 0, [], [], "m".data⟩).1.repB = 0 ∧
    (simRound "x".data "y".data
        ⟨some "x".data, none, 2, 0, 0, [], [], "m".data⟩).1.recovery_count = 0 + 1 ∧
    ((simRound "x".data "y".data
        ⟨some "x".data, none, 2, 0, 0, [], [], "m".data⟩).2 = true ↔
      max_recoveries ≤ 0 + 1) :=
  C6_recovery "x".data "y".data ⟨some "x".data, none, 2, 0, 0, [], [], "m".data⟩
    (Or.inl (by decide))

/-- A successful prune cycle strictly shrinks the message list. -/
theorem pruneNext_length (st : Str) (s : MemState) (h : s.messages ≠ []) :
    (pruneNext st s).messages.length < s.messages.length := by
  have h1 : 1 ≤ s.messages.length := List.length_pos.mpr h
  have hb : 1 ≤ pruneBatchSize s := le_max_left _ _
  unfold pruneNext
  simp only [List.length_drop]
  exact Nat.sub_lt (by omega) (by omega)

/-- The prune loop result does not depend on the fuel once the fuel exceeds
the number of messages. -/
theorem pruneFuel_congr (tk : Str → Nat) (lim margin : Int) (sth hs : Bool)
    (summarizer : Nat → Str → Str) (smR dbOk : Nat → Bool) :
    ∀ f1 f2 k s, s.messages.length < f1 → s.messages.length < f2 →
      pruneFuel tk lim margin sth hs summarizer smR dbOk f1 k s =
      pruneFuel tk lim margin sth hs summarizer smR dbOk f2 k s := by
  intro f1
  induction f1 with
  | zero => intro f2 k s h1 _; exact absurd h1 (Nat.not_lt_zero _)
  | succ a ih =>
    intro f2 k s h1 h2
    cases f2 with
    | zero => exact absurd h2 (Nat.not_lt_zero _)
    | succ b =>
      simp only [pruneFuel]
      by_cases hcond : (memTokens tk s : Int) > lim - margin ∧ s.messages ≠ []
      · rw [if_pos hcond, if_pos hcond]
        by_cases hsum : summarizer k (pruneChunkText sth s) ≠ []
        · rw [if_pos hsum, if_pos hsum]
          by_cases hsm : smR k = true
          · rw [if_pos hsm, if_pos hsm]
          · rw [if_neg hsm, if_neg hsm]
            have hlt := pruneNext_length (summarizer k (pruneChunkText sth s)) s hcond.2
            have heq := ih b (k + 1) (pruneNext (summarizer k (pruneChunkText sth s)) s)
              (by omega) (by omega)
            rw [heq]
        · rw [if_neg hsum, if_neg hsum]
      · rw [if_neg hcond, if_neg hcond]

/-- When the prune loop exits without aborting, the loop condition has become
false: the final state fits the budget or has no messages left. -/
theorem pruneFuel_inv (tk : Str → Nat) (lim margin : Int) (sth hs : Bool)
    (summarizer : Nat → Str → Str) (smR dbOk : Nat → Bool) :
    ∀ fuel k s, s.messages.length < fuel →
      (pruneFuel tk lim margin sth hs summarizer smR dbOk fuel k s).aborted = false →
      ((memTokens tk
          (pruneFuel tk lim margin sth hs summarizer smR dbOk fuel k s).state : Int)
          ≤ lim - margin ∨
        (pruneFuel tk lim margin sth hs summarizer smR dbOk fuel k s).state.messages
          = []) := by
  intro fuel
  induction fuel with
  | zero => intro k s h1 _; exact absurd h1 (Nat.not_lt_zero _)
  | succ a ih =>
    intro k s h1 hab
    simp only [pruneFuel] at hab ⊢
    by_cases hcond : (memTokens tk s : Int) > lim - margin ∧ s.messages ≠ []
    · rw [if_pos hcond] at hab ⊢
      by_cases hsum : summarizer k (pruneChunkText sth s) ≠ []
      · rw [if_pos hsum] at hab ⊢
        by_cases hsm : smR k = true
        · rw [if_pos hsm] at hab
          simp at hab
        · rw [if_neg hsm] at hab ⊢
          have hlt := pruneNext_length (summarizer k (pruneChunkText sth s)) s hcond.2
          exact ih (k + 1) (pruneNext (summarizer k (pruneChunkText sth s)) s)
            (by omega) hab
      · rw [if_neg hsum] at hab
        simp at hab
    · rw [if_neg hcond] at hab ⊢
      push_neg at hcond
      by_cases hm : s.messages = []
      · exact Or.inr hm
      · exact Or.inl (le_of_not_lt (fun hlt => hm (hcond hlt)))

/-- Claim C2: for every Window Memory state, when `prune()` returns without an
aborted cycle (no empty summarisation result and no raised storage bootstrap
error during the call), the post-state satisfies tokens ≤ ctx_limit − margin
or has an empty message list; and the loop terminates on every input — the
fuel `messages.length + 1` is a fixpoint, every larger fuel computes the same
result. -/
theorem C2_prune_inv_and_term (tk : Str → Nat) (lim margin : Int)
    (sth hs : Bool) (summarizer : Nat → Str → Str) (smR dbOk : Nat → Bool)
    (s : MemState)
    (hok : (prune tk lim margin sth hs summarizer smR dbOk s).aborted = false) :
    ((memTokens tk (prune tk lim margin sth hs summarizer smR dbOk s).state : Int)
        ≤ lim - margin ∨
      (prune tk lim margin sth hs summarizer smR dbOk s).state.messages = []) ∧
    (∀ fuel, s.messages.length + 1 ≤ fuel →
      pruneFuel tk lim margin sth hs summarizer smR dbOk fuel 0 s =
        prune tk lim margin sth hs summarizer smR dbOk s) := by
  constructor
  · exact pruneFuel_inv tk lim margin sth hs summarizer smR dbOk
      (s.messages.length + 1) 0 s (by omega) hok
  · intro fuel hf
    exact pruneFuel_congr tk lim margin sth hs summarizer smR dbOk fuel
      (s.messages.length + 1) 0 s (by omega) (by omega)

/-- Witness for `C2_prune_inv_and_term`: a one-message state over the
word-count tokenizer, budget 3, margin 0. -/
theorem C2_prune_witness :
    ((memTokens wordTk (prune wordTk 3 0 false true (fun _ _ => "S".data)
        (fun _ => false) (fun _ => true)
        ⟨[⟨"user".data, "a b c d".data⟩], []⟩).state : Int) ≤ 3 - 0 ∨
      (prune wordTk 3 0 false true (fun _ _ => "S".data) (fun _ => false)
        (fun _ => true) ⟨[⟨"user".data, "a b c d".data⟩], []⟩).state.messages = []) ∧
    pruneFuel wordTk 3 0 false true (fun _ _ => "S".data) (fun _ => false)
        (fun _ => true) 7 0 ⟨[⟨"user".data, "a b c d".data⟩], []⟩ =
      prune wordTk 3 0 false true (fun _ _ => "S".data) (fun _ => false)
        (fun _ => true) ⟨[⟨"user".data, "a b c d".data⟩], []⟩ := by
  have h := C2_prune_inv_and_term wordTk 3 0 false true (fun _ _ => "S".data)
    (fun _ => false) (fun _ => true) ⟨[⟨"user".data, "a b c d".data⟩], []⟩ (by decide)
  exact ⟨h.1, h.2 7 (by decide)⟩

/-- Claim C3, evaluated at the failing input: a prune cycle whose summariser
returns the non-empty "S" but whose summaries INSERT fails (`dbOk = false`).
`a_save_summary` swallows the exception internally, so the cycle does not
abort: the batch is removed from `messages`, the summary is extended, and
`persisted = [false]` records that no Summary Record was written —
contradicting the claim (and the comment in `prune` itself: "If DB save
fails, do not prune messages to prevent data loss"). -/
theorem C3_save_failure_loses_messages :
    (prune wordTk 3 0 false true (fun _ _ => "S".data) (fun _ => false)
        (fun _ => false)
        ⟨[⟨"user".data, "a b c d".data⟩], []⟩).state.messages = [] ∧
    (prune wordTk 3 0 false true (fun _ _ => "S".data) (fun _ => false)
        (fun _ => false)
        ⟨[⟨"user".data, "a b c d".data⟩], []⟩).state.summary = "S".data ∧
    (prune wordTk 3 0 false true (fun _ _ => "S".data) (fun _ => false)
        (fun _ => false)
        ⟨[⟨"user".data, "a b c d".data⟩], []⟩).aborted = false ∧
    (prune wordTk 3 0 false true (fun _ _ => "S".data) (fun _ => false)
        (fun _ => false)
        ⟨[⟨"user".data, "a b c d".data⟩], []⟩).persisted = [false] := by
  exact ⟨by decide, by decide, by decide, by decide⟩

/-- Claim C9, counterexample: saving two messages whose explicit timestamps
arrive out of order ("2" then "1") and reading the session back returns the
contents reordered: "b" before "a" — not the saved order, a change beyond
timestamp normalisation. -/
theorem C9_counterexample :
    (get_history (save_messages [] "s".data
        [⟨"user".data, "a".data, [], some "2".data⟩,
         ⟨"user".data, "b".data, [], some "1".data⟩] (fun _ => "0".data))
        "s".data).map (fun m => (m.role, m.content)) =
      [("user".data, "b".data), ("user".data, "a".data)] ∧
    [("user".data, "b".data), ("user".data, "a".data)] ≠
      [("user".data, "a".data), ("user".data, "b".data)] := by
  exact ⟨by decide, by decide⟩

/-- After `save_messages`, filtering the store to the session leaves exactly
the freshly inserted rows, in insertion order. -/
theorem save_messages_filter (db : List DbRow) (sid : Str) (ms : List InMsg)
    (nows : Nat → Str) :
    (save_messages db sid ms nows).filter (fun r => decide (r.session_id = sid)) =
      ms.enum.map (fun im =>
        ⟨sid, im.2.role, im.2.content, im.2.images, im.2.timestamp.getD (nows im.1)⟩) := by
  unfold save_messages
  rw [List.filter_append]
  have h1 : (db.filter (fun r => decide (¬ r.session_id = sid))).filter
      (fun r => decide (r.session_id = sid)) = [] := by
    rw [List.filter_filter]
    apply List.filter_eq_nil_iff.mpr
    intro a _
    by_cases h : a.session_id = sid <;> simp [h]
  have h2 : (ms.enum.map (fun im =>
      (⟨sid, im.2.role, im.2.content, im.2.images,
        im.2.timestamp.getD (nows im.1)⟩ : DbRow))).filter
      (fun r => decide (r.session_id = sid)) =
      ms.enum.map (fun im =>
        ⟨sid, im.2.role, im.2.content, im.2.images, im.2.timestamp.getD (nows im.1)⟩) := by
    apply List.filter_eq_self.mpr
    intro a ha
    rcases List.mem_map.mp ha with ⟨im, _, rfl⟩
    simp
  rw [h1, h2, List.nil_append]

/-- The stable sort is the identity on a list already sorted by timestamp. -/
theorem sortByTs_sorted_id (l : List DbRow)
    (h : l.Chain' (fun a b => strLe a.timestamp b.timestamp = true)) :
    sortByTs l = l := by
  induction l with
  | nil => rfl
  | cons r rs ih =>
    have hrs : rs.Chain' (fun a b => strLe a.timestamp b.timestamp = true) := h.tail
    rw [sortByTs, ih hrs]
    cases rs with
    | nil => rfl
    | cons x xs =>
      have hr : strLe r.timestamp x.timestamp = true := (List.chain'_cons.mp h).1
      simp [insertByTs, hr]

/-- Mapping a function of the payload over an enumerated list forgets the
indices. -/
theorem enumFrom_map_payload {α β : Type} (h : α → β) :
    ∀ (n : Nat) (l : List α),
      (List.enumFrom n l).map (fun im => h im.2) = l.map h := by
  intro n l
  induction l generalizing n with
  | nil => rfl
  | cons a rest ih => simp [List.enumFrom, ih]

/-- Claim C9 (amended): `save_messages(s, ms)` followed by `get_history(s)`
returns the messages of `ms` — the same number of messages with equal role
and content fields in the same order, for any prior store contents — provided
the effective timestamps of `ms` (explicit, or the insertion-time defaults)
are non-decreasing.  Without that proviso `get_history`, which orders by
timestamp ascending, returns them reordered (see the counterexample). -/
theorem C9_roundtrip (db : List DbRow) (sid : Str) (ms : List InMsg)
    (nows : Nat → Str)
    (hsort : List.Chain' (fun a b => strLe a b = true)
      (ms.enum.map (fun im => im.2.timestamp.getD (nows im.1)))) :
    (get_history (save_messages db sid ms nows) sid).map
        (fun m => (m.role, m.content)) =
      ms.map (fun m => (m.role, m.content)) ∧
    (get_history (save_messages db sid ms nows) sid).length = ms.length := by
  have hrows : List.Chain' (fun a b : DbRow => strLe a.timestamp b.timestamp = true)
      (ms.enum.map (fun im =>
        (⟨sid, im.2.role, im.2.content, im.2.images,
          im.2.timestamp.getD (nows im.1)⟩ : DbRow))) := by
    rw [List.chain'_map]
    rw [List.chain'_map] at hsort
    exact hsort
  constructor
  · unfold get_history
    rw [save_messages_filter, sortByTs_sorted_id _ hrows, List.map_map, List.map_map]
    exact enumFrom_map_payload (fun m => (m.role, m.content)) 0 ms
  · unfold get_history
    rw [save_messages_filter, sortByTs_sorted_id _ hrows, List.length_map,
      List.length_map, List.enum_length]

/-- Witness for `C9_roundtrip`: two messages with ascending timestamps saved
over a store holding another session's row. -/
theorem C9_roundtrip_witness :
    (get_history (save_messages [⟨"other".data, "user".data, "z".data, [], "9".data⟩]
        "s".data
        [⟨"user".data, "a".data, [], some "1".data⟩,
         ⟨"assistant".data, "b".data, [], some "2".data⟩] (fun _ => "0".data))
        "s".data).map (fun m => (m.role, m.content)) =
      [⟨"user".data, "a".data, [], some "1".data⟩,
       (⟨"assistant".data, "b".data, [], some "2".data⟩ : InMsg)].map
        (fun m => (m.role, m.content)) ∧
    (get_history (save_messages [⟨"other".data, "user".data, "z".data, [], "9".data⟩]
        "s".data
        [⟨"user".data, "a".data, [], some "1".data⟩,
         ⟨"assistant".data, "b".data, [], some "2".data⟩] (fun _ => "0".data))
        "s".data).length =
      [⟨"user".data, "a".data, [], some "1".data⟩,
       (⟨"assistant".data, "b".data, [], some "2".data⟩ : InMsg)].length :=
  C9_roundtrip [⟨"other".data, "user".data, "z".data, [], "9".data⟩] "s".data
    [⟨"user".data, "a".data, [], some "1".data⟩,
     ⟨"assistant".data, "b".data, [], some "2".data⟩] (fun _ => "0".data)
    (List.chain'_cons.mpr ⟨by decide, List.chain'_singleton _⟩)

/-- Words produced by `pySplitAux` contain no whitespace characters, given a
whitespace-free accumulator. -/
theorem mem_pySplitAux_no_ws : ∀ s acc w : Str, (∀ c ∈ acc, isSpace c = false) →
    w ∈ pySplitAux s acc → ∀ c ∈ w, isSpace c = false := by
  intro s
  induction s with
  | nil =>
    intro acc w hacc hw c hc
    by_cases h : acc = []
    · simp [pySplitAux, h] at hw
    · simp [pySplitAux, h] at hw
      subst hw
      exact hacc c (List.mem_reverse.mp hc)
  | cons d rest ih =>
    intro acc w hacc hw c hc
    cases hd : isSpace d with
    | true =>
      by_cases h : acc = []
      · simp [pySplitAux, hd, h] at hw
        exact ih [] w (by simp) hw c hc
      · simp [pySplitAux, hd, h] at hw
        rcases hw with hw | hw
        · subst hw
          exact hacc c (List.mem_reverse.mp hc)
        · exact ih [] w (by simp) hw c hc
    | false =>
      simp [pySplitAux, hd] at hw
      refine ih (d :: acc) w ?_ hw c hc
      intro e he
      rcases List.mem_cons.mp he with he | he
      · subst he; exact hd
      · exact hacc e he

/-- Words of `pySplit` contain no whitespace characters. -/
theorem mem_pySplit_no_ws (s w : Str) (hw : w ∈ pySplit s) :
    ∀ c ∈ w, isSpace c = false :=
  mem_pySplitAux_no_ws s [] w (by simp) hw

/-- Feeding a whitespace-free chunk into the splitter just accumulates it. -/
theorem pySplitAux_no_ws_chunk (w : Str) (hw : ∀ c ∈ w, isSpace c = false) :
    ∀ s acc, pySplitAux (w ++ s) acc = pySplitAux s (w.reverse ++ acc) := by
  induction w with
  | nil => intro s acc; simp
  | cons c w im =>
    intro s acc
    have hc : isSpace c = false := hw c (List.mem_cons_self c w)
    have hw2 : ∀ e ∈ w, isSpace e = false := fun e he => hw e (List.mem_cons_of_mem c he)
    simp only [List.cons_append, pySplitAux, hc, Bool.false_eq_true, if_false]
    show pySplitAux (w ++ s) (c :: acc) = pySplitAux s ((c :: w).reverse ++ acc)
    rw [im hw2 s (c :: acc)]
    simp

/-- Splitting a single non-empty whitespace-free word gives that word. -/
theorem pySplit_word (w : Str) (hws : ∀ c ∈ w, isSpace c = false) (hne : w ≠ []) :
    pySplit w = [w] := by
  have h1 := pySplitAux_no_ws_chunk w hws [] []
  rw [List.append_nil, List.append_nil] at h1
  unfold pySplit
  rw [h1]
  have h2 : w.reverse ≠ [] := by simpa using hne
  simp [pySplitAux, h2]

/-- The splitter is a left inverse of `jws` on lists of non-empty
whitespace-free words. -/
theorem pySplit_jws : ∀ ws : List Str,
    (∀ w ∈ ws, w ≠ [] ∧ ∀ c ∈ w, isSpace c = false) → pySplit (jws ws) = ws := by
  intro ws
  induction ws with
  | nil => intro _; rfl
  | cons w rest ih =>
    intro h
    obtain ⟨hwne, hwws⟩ := h w (List.mem_cons_self w rest)
    cases rest with
    | nil => exact pySplit_word w hwws hwne
    | cons x r =>
      have hrest : ∀ v ∈ x :: r, v ≠ [] ∧ ∀ c ∈ v, isSpace c = false :=
        fun v hv => h v (List.mem_cons_of_mem w hv)
      have hj : jws (w :: x :: r) = w ++ ' ' :: jws (x :: r) := rfl
      unfold pySplit
      rw [hj, pySplitAux_no_ws_chunk w hwws _ [], List.append_nil]
      have hwr : w.reverse ≠ [] := by simpa using hwne
      have hstep : pySplitAux (' ' :: jws (x :: r)) w.reverse =
          w.reverse.reverse :: pySplitAux (jws (x :: r)) [] := by
        simp [pySplitAux, isSpace, hwr]
      rw [hstep, List.reverse_reverse]
      exact congrArg (w :: ·) (ih hrest)

/-- Any result of the final word-chopping loop satisfies the cap. -/
theorem chopWhile_le (tk : Str → Nat) (cap : Nat) :
    ∀ f s r, chopWhile tk cap f s = some r → tk r ≤ cap := by
  intro f
  induction f with
  | zero =>
    intro s r h
    unfold chopWhile at h
    by_cases hle : tk s ≤ cap
    · rw [if_pos hle] at h; cases h; exact hle
    · rw [if_neg hle] at h; cases h
  | succ n ih =>
    intro s r h
    unfold chopWhile at h
    by_cases hle : tk s ≤ cap
    · rw [if_pos hle] at h; cases h; exact hle
    · rw [if_neg hle] at h; exact ih _ r h

/-- With a zero-cost empty string, fuel `word count + 1` makes the chopping
loop terminate. -/
theorem chopWhile_isSome (tk : Str → Nat) (cap : Nat) (h0 : tk [] = 0) :
    ∀ n s, (pySplit s).length ≤ n → (chopWhile tk cap (n + 1) s).isSome = true := by
  intro n
  induction n with
  | zero =>
    intro s hlen
    have hnil : pySplit s = [] := List.length_eq_zero.mp (Nat.le_zero.mp hlen)
    unfold chopWhile
    by_cases hle : tk s ≤ cap
    · simp [hle]
    · rw [if_neg hle]
      unfold chopWhile
      rw [hnil]
      simp [jws, h0]
  | succ m ih =>
    intro s hlen
    unfold chopWhile
    by_cases hle : tk s ≤ cap
    · simp [hle]
    · rw [if_neg hle]
      cases hps : pySplit s with
      | nil => simp [chopWhile, jws, h0]
      | cons w ws =>
        have hprops : ∀ v ∈ (w :: ws).dropLast,
            v ≠ [] ∧ ∀ c ∈ v, isSpace c = false := by
          intro v hv
          have hvmem : v ∈ pySplit s := by
            rw [hps]
            exact (List.dropLast_sublist (w :: ws)).subset hv
          exact ⟨mem_pySplit_ne s v hvmem, mem_pySplit_no_ws s v hvmem⟩
        have hsplit : pySplit (jws (w :: ws).dropLast) = (w :: ws).dropLast :=
          pySplit_jws _ hprops
        have hlen2 : (pySplit (jws (w :: ws).dropLast)).length ≤ m := by
          rw [hsplit, List.length_dropLast]
          rw [hps] at hlen
          simp only [List.length_cons] at hlen ⊢
          omega
        exact ih _ hlen2

/-- The tail of the extractive fallback — the final while loop plus the
`summary or "(no content)"` default — always produces a result within the
cap. -/
theorem chop_then_default_le (tk : Str → Nat) (cap : Nat) (h0 : tk [] = 0)
    (hnc : tk noContentMsg ≤ cap) (summary : Str) :
    ∃ r, (match chopWhile tk cap ((pySplit summary).length + 1) summary with
          | none => none
          | some r0 => some (if r0 ≠ [] then r0 else noContentMsg)) = some r ∧
      tk r ≤ cap := by
  have hs := chopWhile_isSome tk cap h0 (pySplit summary).length summary (Nat.le_refl _)
  obtain ⟨r0, hr0⟩ := Option.isSome_iff_exists.mp hs
  rw [hr0]
  by_cases hne : r0 ≠ []
  · exact ⟨r0, by simp [hne], chopWhile_le tk cap _ _ _ hr0⟩
  · exact ⟨noContentMsg, by simp [hne], hnc⟩

/-- The extractive fallback always returns, and its result is within the
cap. -/
theorem extractiveFallback_le (tk : Str → Nat) (cap : Nat) (h0 : tk [] = 0)
    (hnc : tk noContentMsg ≤ cap) (text : Str) :
    ∃ r, extractiveFallback tk cap text = some r ∧ tk r ≤ cap :=
  chop_then_default_le tk cap h0 hnc _

/-- Sentence punctuation is not whitespace. -/
theorem punct_no_ws (c : Char) (h : isPunct c = true) : isSpace c = false := by
  simp only [isPunct, Bool.or_eq_true, decide_eq_true_eq] at h
  rcases h with (h | h) | h <;> subst h <;> rfl

/-- The head remaining after `dropWhile` fails the predicate. -/
theorem head?_dropWhile_no (p : Char → Bool) : ∀ (l : Str) (c : Char),
    (l.dropWhile p).head? = some c → p c = false := by
  intro l
  induction l with
  | nil => intro c h; cases h
  | cons a t ih =>
    intro c h
    rw [List.dropWhile_cons] at h
    cases hpa : p a with
    | true => rw [if_pos hpa] at h; exact ih c h
    | false =>
      rw [if_neg (by simp [hpa])] at h
      rw [List.head?_cons] at h
      injection h with h2
      subst h2
      exact hpa

/-- The head of an append does not depend on what follows the first element
of the right part. -/
theorem head?_append_cons (x : Str) (c : Char) (t1 t2 : Str) :
    (x ++ c :: t1).head? = (x ++ c :: t2).head? := by
  cases x <;> simp

/-- The trailing-whitespace dropper is `List.rdropWhile`. -/
theorem dropTrailWs_eq_rdrop (s : Str) : dropTrailWs s = s.rdropWhile isSpace := rfl

/-- The result of `pyStrip` does not begin with whitespace. -/
theorem pyStrip_noLeadWs (s : Str) : noLeadWs (pyStrip s) := by
  intro c hc
  obtain ⟨t, ht⟩ : (pyStrip s) <+: s.dropWhile isSpace := by
    unfold pyStrip
    rw [dropTrailWs_eq_rdrop]
    exact List.rdropWhile_prefix _ _
  apply head?_dropWhile_no isSpace s c
  rw [← ht]
  cases hz : pyStrip s with
  | nil => rw [hz] at hc; cases hc
  | cons d z2 =>
    rw [hz] at hc
    simpa using hc

/-- The result of `pyStrip` does not end with whitespace. -/
theorem pyStrip_noTrailWs (s : Str) : noTrailWs (pyStrip s) := by
  intro c hc
  unfold pyStrip at hc
  rw [dropTrailWs_eq_rdrop] at hc
  have hne : (s.dropWhile isSpace).rdropWhile isSpace ≠ [] := by
    intro h
    rw [h] at hc
    cases hc
  have hlast := List.rdropWhile_last_not (p := isSpace) (l := s.dropWhile isSpace) hne
  rw [List.getLast?_eq_getLast_of_ne_nil hne] at hc
  injection hc with h2
  rw [← h2]
  simpa using hlast

/-- Stripping is the identity on strings trimmed at both ends. -/
theorem pyStrip_eq_self (s : Str) (h1 : noLeadWs s) (h2 : noTrailWs s) :
    pyStrip s = s := by
  have hd : s.dropWhile isSpace = s := by
    cases s with
    | nil => rfl
    | cons c t =>
      rw [List.dropWhile_cons]
      have hc := h1 c rfl
      simp [hc]
  unfold pyStrip
  rw [dropTrailWs_eq_rdrop, hd, List.rdropWhile_eq_self_iff]
  intro hl
  have h3 := h2 (s.getLast hl) (List.getLast?_eq_getLast_of_ne_nil hl)
  simp [h3]

/-- Stripping a trimmed string with one trailing space recovers the string. -/
theorem pyStrip_append_space (y : Str) (h1 : noLeadWs y) (h2 : noTrailWs y) :
    pyStrip (y ++ [' ']) = y := by
  cases y with
  | nil => rfl
  | cons c t =>
    have hlead : isSpace c = false := h1 c rfl
    have hd : ((c :: t) ++ [' ']).dropWhile isSpace = (c :: t) ++ [' '] := by
      show (c :: (t ++ [' '])).dropWhile isSpace = c :: (t ++ [' '])
      rw [List.dropWhile_cons]
      simp [hlead]
    unfold pyStrip
    rw [hd, dropTrailWs_eq_rdrop, List.rdropWhile_concat_pos _ _ _ (by rfl)]
    rw [List.rdropWhile_eq_self_iff]
    intro hl
    have h3 := h2 ((c :: t).getLast hl) (List.getLast?_eq_getLast_of_ne_nil hl)
    simp [h3]

/-- Joining keeps the head of a non-empty first word. -/
theorem jws_noLeadWs : ∀ sel : List Str, (∀ p ∈ sel, p ≠ []) →
    (∀ p ∈ sel, noLeadWs p) → noLeadWs (jws sel) := by
  intro sel hne hh
  cases sel with
  | nil => intro c hc; cases hc
  | cons p rest =>
    have hp := hne p (List.mem_cons_self p rest)
    have hph := hh p (List.mem_cons_self p rest)
    cases rest with
    | nil => exact hph
    | cons x r =>
      intro c hc
      rw [show jws (p :: x :: r) = p ++ ' ' :: jws (x :: r) from rfl] at hc
      rw [List.head?_append_of_ne_nil p hp] at hc
      exact hph c hc

/-- Joining keeps the last character of the last word. -/
theorem jws_noTrailWs : ∀ sel : List Str, (∀ p ∈ sel, p ≠ []) →
    (∀ p ∈ sel, noTrailWs p) → noTrailWs (jws sel) := by
  intro sel
  induction sel with
  | nil => intro _ _ c hc; cases hc
  | cons p rest ih =>
    intro hne hh
    cases rest with
    | nil => exact hh p (List.mem_cons_self p [])
    | cons x r =>
      intro c hc
      have hxne : x ≠ [] := hne x (by simp)
      have hxr : jws (x :: r) ≠ [] := jws_ne_nil x r hxne
      rw [show jws (p :: x :: r) = p ++ ' ' :: jws (x :: r) from rfl] at hc
      rw [List.getLast?_append_of_ne_nil p (by simp)] at hc
      have hrec := ih (fun v hv => hne v (List.mem_cons_of_mem p hv))
        (fun v hv => hh v (List.mem_cons_of_mem p hv))
      cases hj : jws (x :: r) with
      | nil => exact absurd hj hxr
      | cons d ds =>
        rw [hj, List.getLast?_cons_cons] at hc
        exact hrec c (hj ▸ hc)

/-- Joining a cons with a non-empty tail. -/
theorem jws_cons_ne (a : Str) (l : List Str) (h : l ≠ []) :
    jws (a :: l) = a ++ ' ' :: jws l := by
  cases l with
  | nil => exact absurd rfl h
  | cons x r => rfl

theorem accOf_cons (a : Str) (l : List Str) :
    accOf (a :: l) = a ++ ' ' :: accOf l := by
  simp [accOf]

/-- Appending the next sentence to the accumulator matches joining the
extended selection. -/
theorem accOf_append_one (sel : List Str) (p : Str) :
    accOf sel ++ p = jws (sel ++ [p]) := by
  induction sel with
  | nil => simp [accOf, jws]
  | cons a sel2 ih =>
    rw [show (a :: sel2) ++ [p] = a :: (sel2 ++ [p]) from rfl]
    rw [accOf_cons, jws_cons_ne a (sel2 ++ [p]) (by simp), ← ih]
    simp

theorem accOf_snoc (sel : List Str) (p : Str) :
    accOf (sel ++ [p]) = accOf sel ++ (p ++ [' ']) := by
  simp [accOf]

/-- A non-empty accumulator is the joined selection plus a trailing space. -/
theorem accOf_eq_jws : ∀ sel : List Str, sel ≠ [] →
    accOf sel = jws sel ++ [' '] := by
  intro sel
  induction sel with
  | nil => intro h; exact absurd rfl h
  | cons a l ih =>
    intro _
    cases l with
    | nil => simp [accOf, jws]
    | cons x r =>
      rw [accOf_cons, ih (by simp), jws_cons_ne a (x :: r) (by simp)]
      simp

/-- Characterisation of the sentence-accumulation loop: the result is the
accumulator of a selection drawn from the initial selection and the input
sentences, and a non-empty selection satisfies the cap. -/
theorem sentLoop_spec (tk : Str → Nat) (cap : Nat) :
    ∀ ps sel : List Str, (sel = [] ∨ tk (jws sel) ≤ cap) →
      ∃ sel2, sentLoop tk cap ps (accOf sel) = accOf sel2 ∧
        (sel2 = [] ∨ tk (jws sel2) ≤ cap) ∧
        ∀ p ∈ sel2, p ∈ sel ∨ p ∈ ps := by
  intro ps
  induction ps with
  | nil =>
    intro sel hinv
    exact ⟨sel, rfl, hinv, fun p hp => Or.inl hp⟩
  | cons sent rest ih =>
    intro sel hinv
    by_cases hc : tk (accOf sel ++ sent) ≤ cap
    · have hstep : sentLoop tk cap (sent :: rest) (accOf sel) =
          sentLoop tk cap rest (accOf sel ++ sent ++ [' ']) := by
        simp [sentLoop, hc]
      have hacc : accOf sel ++ sent ++ [' '] = accOf (sel ++ [sent]) := by
        rw [accOf_snoc]
        simp
      have hinv2 : (sel ++ [sent]) = [] ∨ tk (jws (sel ++ [sent])) ≤ cap := by
        right
        rw [← accOf_append_one]
        exact hc
      obtain ⟨sel2, h1, h2, h3⟩ := ih (sel ++ [sent]) hinv2
      refine ⟨sel2, ?_, h2, fun p hp => ?_⟩
      · rw [hstep, hacc, h1]
      · rcases h3 p hp with hp2 | hp2
        · rcases List.mem_append.mp hp2 with hp3 | hp3
          · exact Or.inl hp3
          · simp at hp3; subst hp3; exact Or.inr (by simp)
        · exact Or.inr (List.mem_cons_of_mem sent hp2)
    · refine ⟨sel, ?_, hinv, fun p hp => Or.inl hp⟩
      simp [sentLoop, hc]

/-- Every piece produced by the sentence splitter on a trimmed, non-empty
segment is non-empty and trimmed at both ends.  The segment processed is
`acc.reverse ++ l`. -/
theorem splitSentencesAux_pieces : ∀ (l acc : Str),
    acc.reverse ++ l ≠ [] → noLeadWs (acc.reverse ++ l) →
    noTrailWs (acc.reverse ++ l) →
    ∀ p ∈ splitSentencesAux l acc, p ≠ [] ∧ noLeadWs p ∧ noTrailWs p := by
  intro l acc
  induction l, acc using splitSentencesAux.induct with
  | case1 acc =>
    intro hne hlead htrail p hp
    unfold splitSentencesAux at hp
    simp only [List.mem_singleton] at hp
    subst hp
    rw [List.append_nil] at hne hlead htrail
    exact ⟨hne, hlead, htrail⟩
  | case2 c rest acc hcond ih =>
    intro hne hlead htrail p hp
    unfold splitSentencesAux at hp
    rw [if_pos hcond] at hp
    have hpunct : isPunct c = true := ((Bool.and_eq_true _ _).mp hcond).1
    have hnextws : (rest.head?.map isSpace).getD false = true :=
      ((Bool.and_eq_true _ _).mp hcond).2
    obtain ⟨d, rest2, hrest⟩ : ∃ d rest2, rest = d :: rest2 := by
      cases rest with
      | nil => simp at hnextws
      | cons d r2 => exact ⟨d, r2, rfl⟩
    have hrestne : rest ≠ [] := by rw [hrest]; simp
    have hlastr : (acc.reverse ++ c :: rest).getLast? = rest.getLast? := by
      rw [List.getLast?_append_of_ne_nil _ (by simp : c :: rest ≠ [])]
      rw [hrest, List.getLast?_cons_cons, ← hrest]
    rcases List.mem_cons.mp hp with hp1 | hp2
    · subst hp1
      refine ⟨by simp, ?_, ?_⟩
      · intro e he
        have he2 : (acc.reverse ++ c :: rest).head? = some e :=
          (head?_append_cons acc.reverse c rest []).trans he
        exact hlead e he2
      · intro e he
        rw [List.getLast?_append_of_ne_nil _ (by simp : [c] ≠ [])] at he
        simp only [List.getLast?_singleton] at he
        injection he with h2
        subst h2
        exact punct_no_ws c hpunct
    · refine ih ?_ ?_ ?_ p hp2
      · show rest.dropWhile isSpace ≠ []
        intro h0
        have hall := List.dropWhile_eq_nil_iff.mp h0
        obtain ⟨g, hgmem⟩ : ∃ g, rest.getLast? = some g := by
          rw [List.getLast?_eq_getLast_of_ne_nil hrestne]
          exact ⟨_, rfl⟩
        have hg := htrail g (hlastr.trans hgmem)
        have hgin : g ∈ rest := List.mem_of_getLast?_eq_some hgmem
        have := hall g hgin
        rw [hg] at this
        cases this
      · intro e he
        exact head?_dropWhile_no isSpace rest e he
      · intro e he
        have hl2ne : rest.dropWhile isSpace ≠ [] := by
          intro h0
          rw [h0] at he
          cases he
        obtain ⟨t, ht⟩ := List.dropWhile_suffix (l := rest) isSpace
        have he2 : rest.getLast? = some e := by
          rw [← ht, List.getLast?_append_of_ne_nil _ hl2ne]
          exact he
        exact htrail e (hlastr.trans he2)
  | case3 c rest acc hcond ih =>
    intro hne hlead htrail p hp
    unfold splitSentencesAux at hp
    rw [if_neg hcond] at hp
    have hseg : (c :: acc).reverse ++ rest = acc.reverse ++ (c :: rest) := by simp
    refine ih ?_ ?_ ?_ p hp
    · rw [hseg]; exact hne
    · rw [hseg]; exact hlead
    · rw [hseg]; exact htrail

/-- Pieces of `splitSentences` on a trimmed non-empty string are non-empty
and trimmed. -/
theorem splitSentences_pieces (s : Str) (hne : s ≠ []) (hh : noLeadWs s)
    (ht : noTrailWs s) :
    ∀ p ∈ splitSentences s, p ≠ [] ∧ noLeadWs p ∧ noTrailWs p :=
  splitSentencesAux_pieces s [] (by simpa) (by simpa [noLeadWs]) (by simpa [noTrailWs])

/-- The smart sentence truncation yields either the empty string or a result
within the cap, for a trimmed non-empty input. -/
theorem truncateBySentences_le (tk : Str → Nat) (cap : Nat) (summary : Str)
    (hne : summary ≠ []) (hh : noLeadWs summary) (ht : noTrailWs summary) :
    truncateBySentences tk cap summary = [] ∨
      tk (truncateBySentences tk cap summary) ≤ cap := by
  have hpieces := splitSentences_pieces summary hne hh ht
  obtain ⟨sel2, h1, h2, h3⟩ :=
    sentLoop_spec tk cap (splitSentences summary) [] (Or.inl rfl)
  unfold truncateBySentences
  rw [show accOf ([] : List Str) = ([] : Str) from rfl] at h1
  show pyStrip (sentLoop tk cap (splitSentences summary) []) = [] ∨
    tk (pyStrip (sentLoop tk cap (splitSentences summary) [])) ≤ cap
  rw [h1]
  cases hsel : sel2 with
  | nil =>
    left
    rfl
  | cons q qs =>
    right
    subst hsel
    have hselne : q :: qs ≠ [] := by simp
    have hmem : ∀ p ∈ q :: qs, p ≠ [] ∧ noLeadWs p ∧ noTrailWs p := by
      intro p hp
      rcases h3 p hp with hp2 | hp2
      · cases hp2
      · exact hpieces p hp2
    have hjh : noLeadWs (jws (q :: qs)) :=
      jws_noLeadWs _ (fun p hp => (hmem p hp).1) (fun p hp => (hmem p hp).2.1)
    have hjt : noTrailWs (jws (q :: qs)) :=
      jws_noTrailWs _ (fun p hp => (hmem p hp).1) (fun p hp => (hmem p hp).2.2)
    rw [accOf_eq_jws _ hselne, pyStrip_append_space _ hjh hjt]
    rcases h2 with h2 | h2
    · exact absurd h2 hselne
    · exact h2

/-- Whatever the retry step returns is the strip of some response text. -/
theorem attemptStep2_shape (tk : Str → Nat) (cap : Nat) (r2 : GenResult)
    (a1 x : Str) (h : attemptStep2 tk cap r2 (pyStrip a1) = some x) :
    ∃ y, x = pyStrip y := by
  unfold attemptStep2 at h
  by_cases c1 : pyStrip a1 ≠ [] ∧ cap < tk (pyStrip a1)
  · rw [if_pos c1] at h
    cases r2 with
    | none => cases h
    | some a2 =>
      injection h with h2
      exact ⟨a2, h2.symm⟩
  · rw [if_neg c1] at h
    injection h with h2
    exact ⟨a1, h2.symm⟩

/-- Every non-`none` result of the finish step is within the cap, provided
the incoming summary is the strip of some text. -/
theorem attemptFinish_le (tk : Str → Nat) (cap : Nat) (summary2 : Str)
    (hshape : ∃ y, summary2 = pyStrip y) (s : Str)
    (h : attemptFinish tk cap summary2 = some s) : tk s ≤ cap := by
  unfold attemptFinish at h
  by_cases c2 : summary2 ≠ [] ∧ cap < tk summary2
  · rw [if_pos c2] at h
    by_cases h3 : truncateBySentences tk cap summary2 ≠ []
    · rw [if_pos h3] at h
      injection h with h4
      subst h4
      obtain ⟨y, hy⟩ := hshape
      rcases truncateBySentences_le tk cap summary2 c2.1
        (hy ▸ pyStrip_noLeadWs y) (hy ▸ pyStrip_noTrailWs y) with he | hle
      · exact absurd he h3
      · exact hle
    · rw [if_neg h3] at h
      cases h
  · rw [if_neg c2] at h
    by_cases h3 : summary2 ≠ []
    · rw [if_pos h3] at h
      injection h with h4
      subst h4
      rcases not_and_or.mp c2 with hc | hc
      · exact absurd h3 hc
      · exact Nat.le_of_not_lt hc
    · rw [if_neg h3] at h
      cases h

/-- Every summary the try block returns is within the cap. -/
theorem summarizerAttempt_le (tk : Str → Nat) (cap : Nat) (r1 r2 : GenResult)
    (s : Str) (h : summarizerAttempt tk cap r1 r2 = some s) : tk s ≤ cap := by
  cases r1 with
  | none => cases h
  | some a1 =>
    have h2 : (match attemptStep2 tk cap r2 (pyStrip a1) with
        | none => (none : Option Str)
        | some summary2 => attemptFinish tk cap summary2) = some s := h
    cases hstep : attemptStep2 tk cap r2 (pyStrip a1) with
    | none =>
      rw [hstep] at h2
      exact Option.noConfusion h2
    | some summary2 =>
      rw [hstep] at h2
      exact attemptFinish_le tk cap summary2
        (attemptStep2_shape tk cap r2 a1 summary2 hstep) s h2

/-- Claim C4: whenever the (optionally think-stripped) input passes the
4000-token guard, `summarize_text_impl` returns a summary, and whenever that
summary is non-empty its token count is at most the configured cap — in
every branch: model answer within cap, retry, sentence-by-sentence
truncation, and the extractive fallback.  The two tokenizer hypotheses
(empty text costs zero; the "(no content)" default fits the cap) hold for
the real tokenizer and every permitted cap (`SUMMARY_MAX_TOKENS ≥ 32`). -/
theorem C4_summary_within_cap (tk : Str → Nat) (sth : Bool) (cap : Nat)
    (r1 r2 : GenResult) (text : Str) (h0 : tk [] = 0)
    (hnc : tk noContentMsg ≤ cap)
    (hin : tk (if sth then text else stripThink text) ≤ INPUT_LIMIT) :
    ∃ out, summarize_text_impl tk sth cap r1 r2 text = some out ∧
      (out ≠ [] → tk out ≤ cap) := by
  unfold summarize_text_impl
  rw [if_neg (Nat.not_lt.mpr hin)]
  cases hatt : summarizerAttempt tk cap r1 r2 with
  | some s => exact ⟨s, rfl, fun _ => summarizerAttempt_le tk cap r1 r2 s hatt⟩
  | none =>
    obtain ⟨r, hr1, hr2⟩ := extractiveFallback_le tk cap h0 hnc
      (if sth then text else stripThink text)
    exact ⟨r, hr1, fun _ => hr2⟩

/-- Witness for `C4_summary_within_cap`: word-count tokenizer, cap 128, a
first model answer already within the cap. -/
theorem C4_witness :
    ∃ out, summarize_text_impl wordTk false 128 (some "a tidy summary.".data)
        none "some long text".data = some out ∧
      (out ≠ [] → wordTk out ≤ 128) :=
  C4_summary_within_cap wordTk false 128 (some "a tidy summary.".data) none
    "some long text".data rfl (by decide) (by decide)

end APE
